import Mathlib

/-!
# Verification of ColossalAI tensor-parallel linear layers

Shallow embedding of `colossalai/shardformer/layer/linear.py`
(`Linear1D_Col`, `Linear1D_Row`) over exact integer arithmetic.

Tensors along the feature (last) dimension are modelled as `List Int`
(the batch dimensions are orthogonal to every property checked here:
`F.linear` acts row-by-row, so a single activation row is a faithful
per-row embedding).  A weight tensor is a list of rows (`List (List Int)`).
The cluster of `world_size` ranks is modelled explicitly: a distributed
layer holds the list of per-rank shards, and collectives (`all_reduce`,
`all_gather`) are elementwise sums / rank-order concatenations over that
list, following the spec of the communication primitives
(`reduce_forward`, `gather_forward_split_backward`,
`split_forward_gather_backward` live outside the extracted sources and
are modelled from the spec, section 4.1).

Forward functions also return the trace of collective operations issued
before returning (or before raising), so that "fails locally, no
collective issued" properties are statable.
-/

set_option autoImplicit false

namespace ColossalLinear

abbrev Vec := List Int
abbrev Mat := List (List Int)

/-- Dot product of two equally long vectors (extra tail ignored, as both
uses always have matching lengths). -/
def dot : Vec → Vec → Int
  | a :: as, b :: bs => a * b + dot as bs
  | _, _ => 0

/-- `F.linear(x, w)` = `x · wᵀ`: one output coordinate per weight row. -/
def linearNoBias (x : Vec) (w : Mat) : Vec :=
  w.map (fun wrow => dot x wrow)

/-- Elementwise vector addition. -/
def vadd (a b : Vec) : Vec := List.zipWith (fun u v => u + v) a b

/-- `all_reduce` with sum: elementwise sum of the per-rank contributions;
the result is replicated on every rank.  Modelled from the spec
(`ReduceSum`, section 4.1). -/
def reduceSum : List Vec → Vec
  | [] => []
  | [v] => v
  | v :: vs => vadd v (reduceSum vs)

/-- Worker for `chunksOf`, structurally recursive on a fuel bounded
below by the list length (each step consumes at least one element). -/
def chunksOfAux {α : Type} (k : Nat) : Nat → List α → List (List α)
  | _, [] => []
  | 0, a :: l => [a :: l]
  | fuel + 1, a :: l => (a :: l.take (k - 1)) :: chunksOfAux k fuel (l.drop (k - 1))

/-- Split a list into contiguous blocks of size `k` (the last block may be
shorter).  For `k = 0` the function still makes progress, producing
singleton blocks; all uses have `0 < k`. -/
def chunksOf {α : Type} (k : Nat) (l : List α) : List (List α) :=
  chunksOfAux k l.length l

/-- `torch.chunk(w, c, dim=0)`: splits into blocks of `⌈rows/c⌉` rows.
Documented PyTorch behaviour: this may return FEWER than `c` chunks
(e.g. 5 rows into 4 chunks gives sizes 2,2,1 — three chunks). -/
def torchChunk (c : Nat) (w : Mat) : List Mat :=
  chunksOf ((w.length + c - 1) / c) w

/-- Last dimension of a (rectangular, nonempty) weight matrix: the row
width, i.e. `weight.shape[-1]`. -/
def lastDim (w : Mat) : Nat := (w.headD []).length

/-- `weight.shape` of a 2-D weight tensor. -/
def matShape (w : Mat) : List Nat := [w.length, lastDim w]

/-- Collective operations, recorded in issue order. -/
inductive Coll where
  | allReduceAsync (chunk : Nat)
  | allReduceSync
  | allGather
  deriving DecidableEq, Repr

/-- Errors a forward call can raise.  `shapeMismatch` carries the full
diagnostic of the source assertion message: the input shape, the weight
shape, and the expected last dimension of the input. -/
inductive FwdErr where
  | shapeMismatch (inputShape : List Nat) (weightShape : List Nat) (expected : Nat)
  | trainingChunked
  | indexError
  deriving DecidableEq, Repr

/-- A forward result: either a bare output tensor, or the
`(output, bias)` pair returned under `skip_bias_add`. -/
inductive FwdOut where
  | single (y : Vec)
  | pair (y : Vec) (b : Option Vec)
  deriving DecidableEq, Repr

/-- Tail of both forwards: `if not self.skip_bias_add: (output + bias
when present); return output` else `return output, self.bias`. -/
def addBias (skip : Bool) (bias : Option Vec) (y : Vec) : FwdOut :=
  if skip then .pair y bias
  else
    match bias with
    | some b => .single (vadd y b)
    | none => .single y

/-! ## Row-parallel layer (`Linear1D_Row`) -/

/-- The flags of a `Linear1D_Row` layer relevant to `forward` (identical
on every rank, as the spec requires for collective consistency). -/
structure RowCfg where
  parallel_input : Bool
  skip_bias_add : Bool
  stream_chunk_num : Nat
  training : Bool
  deriving DecidableEq, Repr

/-- Default of the `parallel_input` keyword in the `Linear1D_Row`
constructor signature (source line 224: `parallel_input: bool = True`). -/
def rowParallelInputDefault : Bool := true

/-- Default of `parallel_input` as stated by the `Linear1D_Row`
docstring (source line 205: "it's assumed that the input is split,
defaults to False").  Modelled from the documentation text, to be
compared with the signature default above. -/
def rowParallelInputDocumentedDefault : Bool := false

/-- The `parallel_input = True` branch: every rank asserts
`input.shape[-1] == weight.shape[-1]` against its own shard; the first
failing rank's diagnostic is reported. -/
def firstShapeErrPar : List Vec → List Mat → Option FwdErr
  | x :: xs, w :: ws =>
    if x.length = lastDim w then firstShapeErrPar xs ws
    else some (.shapeMismatch [x.length] (matShape w) (lastDim w))
  | _, _ => none

/-- The `parallel_input = False` branch check.  Modelled from the spec:
the `divide` helper is outside the extracted sources; per the spec
(section 7) the check is a last-dimension mismatch whose diagnostic
names both shapes and the expected value
`weight.shape[-1] * num_partitions`. -/
def firstShapeErrRep (P : Nat) : List Vec → List Mat → Option FwdErr
  | x :: xs, w :: ws =>
    if x.length = lastDim w * P then firstShapeErrRep P xs ws
    else some (.shapeMismatch [x.length] (matShape w) (lastDim w * P))
  | _, _ => none

/-- `split_forward_gather_backward(input, dim=-1)`: each rank keeps its
own contiguous slice of its (replicated) input — pure local slicing, no
collective.  Modelled from the spec (`Split`, section 4.1). -/
def splitInputs (P : Nat) (inputs : List Vec) : List Vec :=
  inputs.enum.map (fun p => (chunksOf (p.2.length / P) p.2).getD p.1 [])

/-- One chunk iteration of the streamed loop, cluster-wide: every rank
indexes `weight_list[i]` (out-of-range raises, as in Python) and computes
`F.linear(input_, weight_list[i])`. -/
def allRanksChunk (xs : List Vec) (wls : List (List Mat)) (i : Nat) : Option (List Vec) :=
  if ∀ p ∈ xs.zip wls, i < p.2.length then
    some ((xs.zip wls).map (fun p => linearNoBias p.1 (p.2.getD i [])))
  else none

/-- The chunked loop over the given chunk indices: compute each partial,
issue its asynchronous all-reduce, then (after the loop) the waits
complete in issue order and each entry holds the reduced sum. -/
def chunkedChunks (xs : List Vec) (wls : List (List Mat)) :
    List Nat → List Coll × Except FwdErr (List Vec)
  | [] => ([], .ok [])
  | i :: rest =>
    match allRanksChunk xs wls i with
    | none => ([], .error .indexError)
    | some partials =>
      let res := chunkedChunks xs wls rest
      (Coll.allReduceAsync i :: res.1, res.2.map (fun vs => reduceSum partials :: vs))

/-- Step 1 of `Linear1D_Row.forward`: the per-branch shape assertion,
and — on the replicated branch — the local `Split` producing each
rank's input shard. -/
def rowStep1 (cfg : RowCfg) (weights : List Mat) (inputs : List Vec) :
    Except FwdErr (List Vec) :=
  if cfg.parallel_input then
    match firstShapeErrPar inputs weights with
    | some e => .error e
    | none => .ok inputs
  else
    match firstShapeErrRep weights.length inputs weights with
    | some e => .error e
    | none => .ok (splitInputs weights.length inputs)

/-- Cluster-level `Linear1D_Row.forward`: `weights` are the per-rank
weight shards `[out, in/P]`, `bias` the replicated bias, `inputs` the
per-rank input tensors.  Returns the collectives issued (in issue order)
and the replicated result, mirroring the source control flow:
shape check / split, then chunked (training check, per-chunk matmul and
async all-reduce, wait, concatenate) or standard (matmul, sync
all-reduce), then the bias step. -/
def rowForward (cfg : RowCfg) (weights : List Mat) (bias : Option Vec)
    (inputs : List Vec) : List Coll × Except FwdErr FwdOut :=
  match rowStep1 cfg weights inputs with
  | .error e => ([], .error e)
  | .ok xs =>
    if 1 < cfg.stream_chunk_num then
      if cfg.training then ([], .error .trainingChunked)
      else
        let wls := weights.map (torchChunk cfg.stream_chunk_num)
        let res := chunkedChunks xs wls (List.range cfg.stream_chunk_num)
        match res.2 with
        | .error e => (res.1, .error e)
        | .ok reducedList => (res.1, .ok (addBias cfg.skip_bias_add bias reducedList.flatten))
    else
      let partials := (xs.zip weights).map (fun p => linearNoBias p.1 p.2)
      ([Coll.allReduceSync], .ok (addBias cfg.skip_bias_add bias (reduceSum partials)))

/-- `shard_colwise` applied to the dense weight: rank `r` keeps the
`r`-th contiguous block of `k` columns of every row. -/
def shardColwise (k P : Nat) (w : Mat) : List Mat :=
  (List.range P).map (fun r => w.map (fun row => (chunksOf k row).getD r []))

/-! ## Column-parallel layer (`Linear1D_Col`) -/

/-- The flags of a `Linear1D_Col` layer relevant to `forward`. -/
structure ColCfg where
  gather_output : Bool
  skip_bias_add : Bool
  deriving DecidableEq, Repr

/-- One rank's `linear_with_async_comm(input, weight, bias)` output,
where `bias = self.bias if not self.skip_bias_add else None`. -/
def colLocalOut (skip : Bool) (w : Mat) (b : Option Vec) (x : Vec) : Vec :=
  match (if skip then none else b) with
  | some bv => vadd (linearNoBias x w) bv
  | none => linearNoBias x w

/-- Cluster-level `Linear1D_Col.forward` as executed on rank `r` with a
replicated input `x`: local shape assertion, local matmul (+ bias shard
unless skipped), optional all-gather of every rank's partial-width
output in rank order along the last dimension
(`gather_forward_split_backward`, modelled from the spec), then the
return shape dictated by `skip_bias_add`. -/
def colForward (cfg : ColCfg) (weights : List Mat) (biases : List (Option Vec))
    (r : Nat) (x : Vec) : List Coll × Except FwdErr FwdOut :=
  let w := weights.getD r []
  if x.length = lastDim w then
    let outputParallel := colLocalOut cfg.skip_bias_add w (biases.getD r none) x
    let gathered :=
      if cfg.gather_output then
        ([Coll.allGather],
          ((List.range weights.length).map
            (fun r2 => colLocalOut cfg.skip_bias_add (weights.getD r2 [])
              (biases.getD r2 none) x)).flatten)
      else ([], outputParallel)
    if cfg.skip_bias_add then
      (gathered.1, .ok (.pair gathered.2 (biases.getD r none)))
    else
      (gathered.1, .ok (.single gathered.2))
  else ([], .error (.shapeMismatch [x.length] (matShape w) (lastDim w)))

/-! ## Construction (`__init__`) and dense-layer conversion -/

/-- Observable construction-time effects, in the order the constructor
performs them: parameter allocation, sharding of an adopted or fresh
tensor, pre-chunking of the weight, and parameter initialization (which
for the row layer broadcasts the bias across ranks). -/
inductive InitEvent where
  | allocWeight
  | shardWeight
  | chunkWeight
  | allocBias
  | shardBias
  | resetParams
  | broadcastBias
  deriving DecidableEq, Repr

/-- Constructor-time errors: the contradictory-flags `ValueError` and
the two sanity assertions about supplied parameters. -/
inductive InitErr where
  | skipBiasNoBias
  | biasShardMissing
  | unexpectedBiasShard
  deriving DecidableEq, Repr

/-- `Linear1D_Col.__init__` reduced to its checks and effect trace, in
source order: keep the flags (no effect), raise on
`skip_bias_add and not bias`, run the sanity assertions on supplied
parameters, then allocate/adopt and shard the weight, allocate/adopt and
shard the bias, and initialize fresh parameters. -/
def colInit (bias skip : Bool) (weightProvided biasProvided : Bool) :
    List InitEvent × Except InitErr Unit :=
  if skip ∧ ¬bias then ([], .error .skipBiasNoBias)
  else if weightProvided ∧ bias ∧ ¬biasProvided then ([], .error .biasShardMissing)
  else if ¬weightProvided ∧ biasProvided then ([], .error .unexpectedBiasShard)
  else
    let evW := if weightProvided then [InitEvent.shardWeight]
               else [InitEvent.allocWeight, InitEvent.shardWeight]
    let evB := if bias then
                 (if biasProvided then [InitEvent.shardBias]
                  else [InitEvent.allocBias, InitEvent.shardBias])
               else []
    let evR := if weightProvided then [] else [InitEvent.resetParams]
    (evW ++ evB ++ evR, .ok ())

/-- `Linear1D_Row.__init__` reduced to its checks and effect trace, in
source order: raise on `skip_bias_add and not bias`, sanity assertions,
weight allocation/adoption and colwise sharding, pre-chunking when
`stream_chunk_num > 1`, bias allocation/adoption (kept replicated, never
sharded), and — for fresh parameters — initialization under the forked
RNG, whose bias path broadcasts from rank 0. -/
def rowInit (bias skip : Bool) (streamChunkNum : Nat) (weightProvided biasProvided : Bool) :
    List InitEvent × Except InitErr Unit :=
  if skip ∧ ¬bias then ([], .error .skipBiasNoBias)
  else if weightProvided ∧ bias ∧ ¬biasProvided then ([], .error .biasShardMissing)
  else if ¬weightProvided ∧ biasProvided then ([], .error .unexpectedBiasShard)
  else
    let evW := (if weightProvided then [InitEvent.shardWeight]
                else [InitEvent.allocWeight, InitEvent.shardWeight])
               ++ (if 1 < streamChunkNum then [InitEvent.chunkWeight] else [])
    let evB := if bias ∧ ¬biasProvided then [InitEvent.allocBias] else []
    let evR := if weightProvided then []
               else [InitEvent.resetParams] ++ (if bias then [InitEvent.broadcastBias] else [])
    (evW ++ evB ++ evR, .ok ())

/-- Conversion errors: the divisibility `ValueError`, whose message
names the offending feature count and the tensor-parallel world size. -/
inductive ConvErr where
  | notDivisible (features tpSize : Nat)
  deriving DecidableEq, Repr

/-- Result of `from_native_module`: either the original dense module
returned unchanged, or a constructed parallel layer (carrying its
construction-effect trace). -/
inductive ConvOut where
  | dense
  | parallel (events : List InitEvent)
  deriving DecidableEq, Repr

/-- `Linear1D_Col.from_native_module`: if `out_features < tp_size`
return the dense module unchanged; if `out_features % tp_size != 0`
raise the divisibility error naming both sizes; otherwise construct the
parallel layer from the existing weight and bias. -/
def colFromNativeModule (inFeatures outFeatures : Nat) (biasPresent : Bool)
    (tpSize : Nat) : Except ConvErr ConvOut :=
  if outFeatures < tpSize then .ok .dense
  else if outFeatures % tpSize ≠ 0 then .error (.notDivisible outFeatures tpSize)
  else .ok (.parallel (colInit biasPresent false true biasPresent).1)

/-- `Linear1D_Row.from_native_module`: symmetric, gated on
`in_features`. -/
def rowFromNativeModule (inFeatures outFeatures : Nat) (biasPresent : Bool)
    (tpSize : Nat) : Except ConvErr ConvOut :=
  if inFeatures < tpSize then .ok .dense
  else if inFeatures % tpSize ≠ 0 then .error (.notDivisible inFeatures tpSize)
  else .ok (.parallel (rowInit biasPresent false 1 true biasPresent).1)

/-! ## Deterministic per-rank initialization and the scoped RNG context -/

/-- The ambient pseudo-random generator state. -/
abbrev RngState := Nat

/-- `randomizer.fork_rng(enable_cpu=True)`: run the body, then restore
the ambient random state that was saved on entry — on every exit path
(the body's result, including an exceptional one, is passed through
unchanged while the state is restored).  Modelled from the spec: the
`create_randomizer_with_offset` utility is outside the extracted
sources; the spec (section 4.5) specifies save-on-entry /
restore-on-every-exit semantics. -/
def forkRng {α : Type} (body : RngState → α × RngState) (s : RngState) : α × RngState :=
  ((body s).1, s)

/-- Run the two initializers in source order, consuming ambient
randomness; `hasBias` guards the bias initializer. -/
def runInitializers (hasBias : Bool) (wInit bInit : RngState → RngState)
    (s : RngState) : RngState :=
  if hasBias then bInit (wInit s) else wInit s

/-- `Linear1D_Col.reset_parameters`: the method body itself opens
`with self.randomizer.fork_rng(enable_cpu=True)` around both
initializer calls, so the ambient state is restored on return. -/
def colResetParameters (hasBias : Bool) (wInit bInit : RngState → RngState)
    (s : RngState) : Unit × RngState :=
  forkRng (fun t => ((), runInitializers hasBias wInit bInit t)) s

/-- `Linear1D_Row.reset_parameters`: the method body runs both
initializers (and the bias broadcast, which does not touch the RNG)
directly on the ambient state — it contains no `fork_rng` of its own. -/
def rowResetParameters (hasBias : Bool) (wInit bInit : RngState → RngState)
    (s : RngState) : RngState :=
  runInitializers hasBias wInit bInit s

/-- The construction-time initialization of `Linear1D_Row`: its
`__init__` wraps the `reset_parameters` call in the forked-RNG scope at
the call site. -/
def rowInitTimeReset (hasBias : Bool) (wInit bInit : RngState → RngState)
    (s : RngState) : Unit × RngState :=
  forkRng (fun t => ((), rowResetParameters hasBias wInit bInit t)) s

/-! ## Supporting lemmas -/

theorem vadd_length (a b : Vec) : (vadd a b).length = min a.length b.length := by
  simp [vadd]

theorem reduceSum_cons (v : Vec) (l : List Vec) (h : l ≠ []) :
    reduceSum (v :: l) = vadd v (reduceSum l) := by
  cases l with
  | nil => exact absurd rfl h
  | cons w ws => rfl

theorem reduceSum_length (k : Nat) (l : List Vec) (h : ∀ v ∈ l, v.length = k)
    (hne : l ≠ []) : (reduceSum l).length = k := by
  induction l with
  | nil => exact absurd rfl hne
  | cons v t ih =>
    cases t with
    | nil => simpa [reduceSum] using h v (by simp)
    | cons w ws =>
      rw [reduceSum_cons v (w :: ws) (by simp), vadd_length,
        ih (fun u hu => h u (List.mem_cons_of_mem _ hu)) (by simp),
        h v (by simp), Nat.min_self]

theorem reduceSum_nil_of_all_nil (l : List Vec) (h : ∀ v ∈ l, v = []) :
    reduceSum l = [] := by
  induction l with
  | nil => rfl
  | cons v t ih =>
    cases t with
    | nil => simpa [reduceSum] using h v (by simp)
    | cons w ws =>
      rw [reduceSum_cons v _ (by simp), h v (by simp)]
      simp [vadd]

theorem vadd_append (a b c d : Vec) (h : a.length = c.length) :
    vadd (a ++ b) (c ++ d) = vadd a c ++ vadd b d :=
  List.zipWith_append _ a b c d h

/-- Cross-rank reduction distributes over per-rank concatenation along
the output dimension, when the left parts have a common width. -/
theorem reduceSum_map_append (k : Nat) (l : List (Vec × Vec))
    (h : ∀ p ∈ l, p.1.length = k) :
    reduceSum (l.map (fun p => p.1 ++ p.2)) =
      reduceSum (l.map Prod.fst) ++ reduceSum (l.map Prod.snd) := by
  induction l with
  | nil => rfl
  | cons p t ih =>
    cases t with
    | nil => rfl
    | cons q ws =>
      have e1 : (p :: q :: ws).map (fun p => p.1 ++ p.2)
          = (p.1 ++ p.2) :: (q :: ws).map (fun p => p.1 ++ p.2) := rfl
      have e2 : (p :: q :: ws).map Prod.fst = p.1 :: (q :: ws).map Prod.fst := rfl
      have e3 : (p :: q :: ws).map Prod.snd = p.2 :: (q :: ws).map Prod.snd := rfl
      rw [e1, reduceSum_cons _ _ (by simp), e2, reduceSum_cons _ _ (by simp),
        e3, reduceSum_cons _ _ (by simp),
        ih (fun u hu => h u (List.mem_cons_of_mem _ hu))]
      refine vadd_append _ _ _ _ ?_
      rw [h p (by simp)]
      rw [reduceSum_length k ((q :: ws).map Prod.fst) ?_ (by simp)]
      intro v hv
      rcases List.mem_map.mp hv with ⟨u, hu, rfl⟩
      exact h u (List.mem_cons_of_mem _ hu)

theorem linearNoBias_append (x : Vec) (w1 w2 : Mat) :
    linearNoBias x (w1 ++ w2) = linearNoBias x w1 ++ linearNoBias x w2 := by
  simp [linearNoBias]

theorem linearNoBias_length (x : Vec) (w : Mat) :
    (linearNoBias x w).length = w.length := by
  simp [linearNoBias]

@[simp] theorem chunksOf_nil {α : Type} (k : Nat) : chunksOf k ([] : List α) = [] := rfl

theorem chunksOfAux_fuel {α : Type} (k : Nat) :
    ∀ (n : Nat) (l : List α), l.length ≤ n → ∀ f1 f2, l.length ≤ f1 → l.length ≤ f2 →
      chunksOfAux k f1 l = chunksOfAux k f2 l := by
  intro n
  induction n with
  | zero =>
    intro l hl f1 f2 h1 h2
    have : l = [] := List.eq_nil_of_length_eq_zero (by omega)
    subst this
    cases f1 <;> cases f2 <;> rfl
  | succ n ih =>
    intro l hl f1 f2 h1 h2
    cases l with
    | nil => cases f1 <;> cases f2 <;> rfl
    | cons a t =>
      simp only [List.length_cons] at hl h1 h2
      obtain ⟨g1, rfl⟩ : ∃ g1, f1 = g1 + 1 := ⟨f1 - 1, by omega⟩
      obtain ⟨g2, rfl⟩ : ∃ g2, f2 = g2 + 1 := ⟨f2 - 1, by omega⟩
      simp only [chunksOfAux]
      congr 1
      exact ih (t.drop (k - 1)) (by simp only [List.length_drop]; omega) g1 g2
        (by simp only [List.length_drop]; omega)
        (by simp only [List.length_drop]; omega)

theorem chunksOf_cons {α : Type} (k : Nat) (hk : 0 < k) (l : List α) (hne : l ≠ []) :
    chunksOf k l = l.take k :: chunksOf k (l.drop k) := by
  cases l with
  | nil => exact absurd rfl hne
  | cons a t =>
    have h1 : (a :: t).take k = a :: t.take (k - 1) := by
      cases k with
      | zero => omega
      | succ m => simp
    have h2 : (a :: t).drop k = t.drop (k - 1) := by
      cases k with
      | zero => omega
      | succ m => simp
    show chunksOfAux k (a :: t).length (a :: t)
        = (a :: t).take k :: chunksOf k ((a :: t).drop k)
    simp only [List.length_cons, chunksOfAux]
    rw [h1, h2]
    show _ :: chunksOfAux k t.length (t.drop (k - 1))
        = _ :: chunksOfAux k (t.drop (k - 1)).length (t.drop (k - 1))
    congr 1
    exact chunksOfAux_fuel k t.length (t.drop (k - 1))
      (by simp only [List.length_drop]; omega) t.length (t.drop (k - 1)).length
      (by simp only [List.length_drop]; omega) (le_refl _)

theorem chunksOf_length {α : Type} (k : Nat) (hk : 0 < k) :
    ∀ (P : Nat) (l : List α), l.length = P * k → (chunksOf k l).length = P := by
  intro P
  induction P with
  | zero =>
    intro l hl
    have : l = [] := List.eq_nil_of_length_eq_zero (by simpa using hl)
    simp [this]
  | succ n ih =>
    intro l hl
    have hne : l ≠ [] := by
      intro h
      rw [h] at hl
      simp at hl
      omega
    rw [chunksOf_cons k hk l hne]
    simp only [List.length_cons]
    rw [ih (l.drop k) (by simp only [List.length_drop, hl]; ring_nf; omega)]

theorem chunksOf_mem_length {α : Type} (k : Nat) (hk : 0 < k) :
    ∀ (P : Nat) (l : List α), l.length = P * k → ∀ v ∈ chunksOf k l, v.length = k := by
  intro P
  induction P with
  | zero =>
    intro l hl v hv
    have : l = [] := List.eq_nil_of_length_eq_zero (by simpa using hl)
    rw [this, chunksOf_nil] at hv
    exact absurd hv (by simp)
  | succ n ih =>
    intro l hl v hv
    have hne : l ≠ [] := by
      intro h
      rw [h] at hl
      simp at hl
      omega
    rw [chunksOf_cons k hk l hne] at hv
    rcases List.mem_cons.mp hv with hv | hv
    · rw [hv, List.length_take, hl]
      have : k ≤ (n + 1) * k := Nat.le_mul_of_pos_left k (by omega)
      omega
    · exact ih (l.drop k) (by simp only [List.length_drop, hl]; ring_nf; omega) v hv

theorem chunksOf_getD_zero {α : Type} (k : Nat) (hk : 0 < k) (l : List α)
    (hne : l ≠ []) : (chunksOf k l).getD 0 [] = l.take k := by
  rw [chunksOf_cons k hk l hne]
  rfl

theorem chunksOf_getD_succ {α : Type} (k : Nat) (hk : 0 < k) (l : List α)
    (hne : l ≠ []) (i : Nat) :
    (chunksOf k l).getD (i + 1) [] = (chunksOf k (l.drop k)).getD i [] := by
  rw [chunksOf_cons k hk l hne]
  rfl

/-- When the row count is a positive multiple `c * q`, `torch.chunk`
into `c` chunks produces exactly the blocks of `q` rows. -/
theorem torchChunk_eq_chunksOf (c q : Nat) (hc : 0 < c) (hq : 0 < q) (w : Mat)
    (hw : w.length = c * q) : torchChunk c w = chunksOf q w := by
  unfold torchChunk
  rw [hw]
  have h1 : c * q + c - 1 = c * q + (c - 1) := by omega
  rw [h1, Nat.mul_add_div hc, Nat.div_eq_of_lt (by omega), Nat.add_zero]

/-- Core of the chunked-inference refinement: concatenating the
per-chunk all-reduced partial outputs, in chunk order, reconstructs the
all-reduced full-width output.  `pairs` carries each rank's input shard
and weight shard; every shard has the same row count `m` and splits
under the block size `q` into exactly `c` chunks (the last chunk may be
shorter, as with `torch.chunk`). -/
theorem flatten_chunk_reduce (q : Nat) (hq : 0 < q) :
    ∀ (c m : Nat) (pairs : List (Vec × Mat)),
      (∀ p ∈ pairs, p.2.length = m) →
      (∀ p ∈ pairs, (chunksOf q p.2).length = c) →
      ((List.range c).map (fun i =>
          reduceSum (pairs.map (fun p =>
            linearNoBias p.1 ((chunksOf q p.2).getD i []))))).flatten
        = reduceSum (pairs.map (fun p => linearNoBias p.1 p.2)) := by
  intro c
  induction c with
  | zero =>
    intro m pairs hm hcnt
    simp only [List.range_zero, List.map_nil, List.flatten_nil]
    symm
    apply reduceSum_nil_of_all_nil
    intro v hv
    rcases List.mem_map.mp hv with ⟨p, hp, rfl⟩
    have hp2 : p.2 = [] := by
      by_contra hpne
      have hc0 := hcnt p hp
      rw [chunksOf_cons q hq p.2 hpne] at hc0
      simp at hc0
    rw [hp2]
    rfl
  | succ n ih =>
    intro m pairs hm hcnt
    have hne : ∀ p ∈ pairs, p.2 ≠ [] := by
      intro p hp hnil
      have hc0 := hcnt p hp
      rw [hnil, chunksOf_nil] at hc0
      simp at hc0
    rw [List.range_succ_eq_map, List.map_cons, List.flatten_cons]
    have hhead : pairs.map (fun p => linearNoBias p.1 ((chunksOf q p.2).getD 0 []))
        = pairs.map (fun p => linearNoBias p.1 (p.2.take q)) :=
      List.map_congr_left (fun p hp => by
        rw [chunksOf_getD_zero q hq p.2 (hne p hp)])
    have htail : (List.map Nat.succ (List.range n)).map (fun i =>
          reduceSum (pairs.map (fun p =>
            linearNoBias p.1 ((chunksOf q p.2).getD i []))))
        = (List.range n).map (fun i =>
          reduceSum ((pairs.map (fun p => (p.1, p.2.drop q))).map (fun p =>
            linearNoBias p.1 ((chunksOf q p.2).getD i [])))) := by
      rw [List.map_map]
      refine List.map_congr_left (fun i _ => ?_)
      simp only [Function.comp_apply, Nat.succ_eq_add_one]
      congr 1
      rw [List.map_map]
      refine List.map_congr_left (fun p hp => ?_)
      simp only [Function.comp_apply]
      rw [chunksOf_getD_succ q hq p.2 (hne p hp) i]
    rw [hhead, htail,
      ih (m - q) (pairs.map (fun p => (p.1, p.2.drop q))) (by
        intro p hp
        rcases List.mem_map.mp hp with ⟨p0, hp0, rfl⟩
        simp only [List.length_drop, hm p0 hp0])
      (by
        intro p hp
        rcases List.mem_map.mp hp with ⟨p0, hp0, rfl⟩
        have hc0 := hcnt p0 hp0
        rw [chunksOf_cons q hq p0.2 (hne p0 hp0)] at hc0
        simp only [List.length_cons] at hc0
        show (chunksOf q (p0.2.drop q)).length = n
        omega)]
    have hsplit : pairs.map (fun p => linearNoBias p.1 p.2)
        = (pairs.map (fun p =>
            (linearNoBias p.1 (p.2.take q), linearNoBias p.1 (p.2.drop q)))).map
            (fun p => p.1 ++ p.2) := by
      rw [List.map_map]
      refine List.map_congr_left (fun p _ => ?_)
      simp only [Function.comp_apply]
      rw [← linearNoBias_append, List.take_append_drop]
    rw [hsplit, reduceSum_map_append (min q m) _ (by
      intro p hp
      rcases List.mem_map.mp hp with ⟨p0, hp0, rfl⟩
      simp only [linearNoBias_length, List.length_take, hm p0 hp0])]
    rw [List.map_map, List.map_map, List.map_map]
    rfl

theorem dot_append (a c : Vec) (h : a.length = c.length) (b d : Vec) :
    dot (a ++ b) (c ++ d) = dot a c + dot b d := by
  induction a generalizing c with
  | nil =>
    cases c with
    | nil => simp [dot]
    | cons c0 cs => simp at h
  | cons a0 as ihp =>
    cases c with
    | nil => simp at h
    | cons c0 cs =>
      simp only [List.cons_append, dot, List.append_eq]
      rw [ihp cs (by simpa using h)]
      ring

theorem vadd_map_map {α : Type} (l : List α) (f g : α → Int) :
    vadd (l.map f) (l.map g) = l.map (fun a => f a + g a) := by
  induction l with
  | nil => rfl
  | cons a t ih =>
    simp only [List.map_cons, vadd, List.zipWith_cons_cons]
    exact congrArg _ ih

/-- Core of the standard-mode correctness: colwise sharding of the dense
weight with matching sharding of the input — the cross-rank sum of the
per-shard partial matmuls reconstructs the dense matmul. -/
theorem reduceSum_shard_linear (k : Nat) (hk : 0 < k) :
    ∀ (n : Nat) (x : Vec) (W : Mat),
      x.length = (n + 1) * k → (∀ row ∈ W, row.length = (n + 1) * k) →
      reduceSum ((List.range (n + 1)).map (fun r =>
        linearNoBias ((chunksOf k x).getD r [])
          (W.map (fun row => (chunksOf k row).getD r [])))) = linearNoBias x W := by
  intro n
  induction n with
  | zero =>
    intro x W hx hW
    have hxne : x ≠ [] := by
      intro hnil
      rw [hnil] at hx
      simp at hx
      omega
    rw [List.range_succ_eq_map]
    simp only [List.range_zero, List.map_nil, List.map_cons, reduceSum]
    rw [chunksOf_getD_zero k hk x hxne]
    have hk2 : x.length = k := by simpa using hx
    rw [List.take_of_length_le (le_of_eq hk2)]
    congr 1
    have : W.map (fun row => (chunksOf k row).getD 0 []) = W.map (fun row => row) :=
      List.map_congr_left (fun row hrow => by
        have hrne : row ≠ [] := by
          intro hnil
          have := hW row hrow
          rw [hnil] at this
          simp at this
          omega
        rw [chunksOf_getD_zero k hk row hrne]
        have hrk : row.length = k := by simpa using hW row hrow
        exact List.take_of_length_le (le_of_eq hrk))
    rw [this, List.map_id']
  | succ n ih =>
    intro x W hx hW
    have hxne : x ≠ [] := by
      intro hnil
      rw [hnil] at hx
      simp at hx
      omega
    have hrne : ∀ row ∈ W, row ≠ [] := by
      intro row hrow hnil
      have := hW row hrow
      rw [hnil] at this
      simp at this
      omega
    rw [List.range_succ_eq_map, List.map_cons]
    rw [reduceSum_cons _ _ (by simp)]
    have htail : (List.map Nat.succ (List.range (n + 1))).map (fun r =>
          linearNoBias ((chunksOf k x).getD r [])
            (W.map (fun row => (chunksOf k row).getD r [])))
        = (List.range (n + 1)).map (fun r =>
          linearNoBias ((chunksOf k (x.drop k)).getD r [])
            ((W.map (List.drop k)).map (fun row => (chunksOf k row).getD r []))) := by
      rw [List.map_map]
      refine List.map_congr_left (fun r _ => ?_)
      simp only [Function.comp_apply, Nat.succ_eq_add_one]
      rw [chunksOf_getD_succ k hk x hxne r]
      congr 1
      rw [List.map_map]
      refine List.map_congr_left (fun row hrow => ?_)
      simp only [Function.comp_apply]
      rw [chunksOf_getD_succ k hk row (hrne row hrow) r]
    rw [htail, ih (x.drop k) (W.map (List.drop k))
      (by simp only [List.length_drop, hx]; ring_nf; omega)
      (by
        intro row hrow
        rcases List.mem_map.mp hrow with ⟨row0, hrow0, rfl⟩
        simp only [List.length_drop, hW row0 hrow0]
        ring_nf
        omega)]
    rw [chunksOf_getD_zero k hk x hxne]
    have hhead : W.map (fun row => (chunksOf k row).getD 0 [])
        = W.map (List.take k) :=
      List.map_congr_left (fun row hrow => by
        rw [chunksOf_getD_zero k hk row (hrne row hrow)])
    rw [hhead]
    have h1 : linearNoBias (x.take k) (W.map (List.take k))
        = W.map (fun row => dot (x.take k) (row.take k)) := by
      simp only [linearNoBias, List.map_map]
      rfl
    have h2 : linearNoBias (x.drop k) (W.map (List.drop k))
        = W.map (fun row => dot (x.drop k) (row.drop k)) := by
      simp only [linearNoBias, List.map_map]
      rfl
    rw [h1, h2, vadd_map_map]
    refine List.map_congr_left (fun row hrow => ?_)
    rw [← dot_append (x.take k) (row.take k) (by
        simp only [List.length_take, hx, hW row hrow])
      (x.drop k) (row.drop k)]
    rw [List.take_append_drop, List.take_append_drop]

theorem flatten_map_length {α : Type} (l : List α) (f : α → Vec) (m : Nat)
    (h : ∀ a ∈ l, (f a).length = m) :
    ((l.map f).flatten).length = l.length * m := by
  induction l with
  | nil => simp
  | cons a t ih =>
    simp only [List.map_cons, List.flatten_cons, List.length_append,
      List.length_cons, h a (by simp),
      ih (fun b hb => h b (List.mem_cons_of_mem _ hb))]
    ring

theorem chunksOf_getD_length {α : Type} (k : Nat) (hk : 0 < k) (P : Nat)
    (l : List α) (hl : l.length = P * k) (r : Nat) (hr : r < P) :
    ((chunksOf k l).getD r []).length = k := by
  have hlen : (chunksOf k l).length = P := chunksOf_length k hk P l hl
  rw [List.getD_eq_getElem _ _ (by rw [hlen]; exact hr)]
  exact chunksOf_mem_length k hk P l hl _ (List.getElem_mem _)

theorem firstShapeErrPar_none (xs : List Vec) (ws : List Mat)
    (h : ∀ p ∈ xs.zip ws, p.1.length = lastDim p.2) :
    firstShapeErrPar xs ws = none := by
  induction xs generalizing ws with
  | nil => cases ws <;> rfl
  | cons x xt ih =>
    cases ws with
    | nil => rfl
    | cons w wt =>
      rw [firstShapeErrPar, if_pos (h (x, w) (by simp [List.zip_cons_cons]))]
      exact ih wt (fun p hp => h p (by simp only [List.zip_cons_cons, List.mem_cons]; exact Or.inr hp))

theorem firstShapeErrPar_some (xs : List Vec) (ws : List Mat)
    (h : ∃ p ∈ xs.zip ws, p.1.length ≠ lastDim p.2) :
    ∃ x w, (x, w) ∈ xs.zip ws ∧ x.length ≠ lastDim w ∧
      firstShapeErrPar xs ws
        = some (.shapeMismatch [x.length] (matShape w) (lastDim w)) := by
  induction xs generalizing ws with
  | nil =>
    rcases h with ⟨p, hp, _⟩
    simp at hp
  | cons x xt ih =>
    cases ws with
    | nil =>
      rcases h with ⟨p, hp, _⟩
      simp at hp
    | cons w wt =>
      by_cases hx : x.length = lastDim w
      · rcases h with ⟨p, hp, hpne⟩
        rw [List.zip_cons_cons, List.mem_cons] at hp
        rcases hp with rfl | hp
        · exact absurd hx hpne
        · rcases ih wt ⟨p, hp, hpne⟩ with ⟨x2, w2, hmem, hne2, heq⟩
          refine ⟨x2, w2, ?_, hne2, ?_⟩
          · simp only [List.zip_cons_cons, List.mem_cons]
            exact Or.inr hmem
          · rw [firstShapeErrPar, if_pos hx]
            exact heq
      · exact ⟨x, w, by simp [List.zip_cons_cons], hx, by rw [firstShapeErrPar, if_neg hx]⟩

theorem firstShapeErrRep_some (P : Nat) (xs : List Vec) (ws : List Mat)
    (h : ∃ p ∈ xs.zip ws, p.1.length ≠ lastDim p.2 * P) :
    ∃ x w, (x, w) ∈ xs.zip ws ∧ x.length ≠ lastDim w * P ∧
      firstShapeErrRep P xs ws
        = some (.shapeMismatch [x.length] (matShape w) (lastDim w * P)) := by
  induction xs generalizing ws with
  | nil =>
    rcases h with ⟨p, hp, _⟩
    simp at hp
  | cons x xt ih =>
    cases ws with
    | nil =>
      rcases h with ⟨p, hp, _⟩
      simp at hp
    | cons w wt =>
      by_cases hx : x.length = lastDim w * P
      · rcases h with ⟨p, hp, hpne⟩
        rw [List.zip_cons_cons, List.mem_cons] at hp
        rcases hp with rfl | hp
        · exact absurd hx hpne
        · rcases ih wt ⟨p, hp, hpne⟩ with ⟨x2, w2, hmem, hne2, heq⟩
          refine ⟨x2, w2, ?_, hne2, ?_⟩
          · simp only [List.zip_cons_cons, List.mem_cons]
            exact Or.inr hmem
          · rw [firstShapeErrRep, if_pos hx]
            exact heq
      · exact ⟨x, w, by simp [List.zip_cons_cons], hx, by rw [firstShapeErrRep, if_neg hx]⟩

theorem rowStep1_par_ok (cfg : RowCfg) (hpi : cfg.parallel_input = true)
    (weights : List Mat) (inputs : List Vec)
    (h : ∀ p ∈ inputs.zip weights, p.1.length = lastDim p.2) :
    rowStep1 cfg weights inputs = .ok inputs := by
  unfold rowStep1
  rw [hpi]
  simp only [if_true, firstShapeErrPar_none inputs weights h]

theorem rowForward_of_step1_ok (cfg : RowCfg) (weights : List Mat)
    (bias : Option Vec) (inputs xs : List Vec)
    (hok : rowStep1 cfg weights inputs = .ok xs)
    (hstd : cfg.stream_chunk_num = 1) :
    rowForward cfg weights bias inputs =
      ([Coll.allReduceSync], .ok (addBias cfg.skip_bias_add bias
        (reduceSum ((xs.zip weights).map (fun p => linearNoBias p.1 p.2))))) := by
  unfold rowForward
  rw [hok]
  simp only [hstd]
  rfl

theorem chunkedChunks_ok (xs : List Vec) (wls : List (List Mat)) (idxs : List Nat)
    (h : ∀ i ∈ idxs, ∀ p ∈ xs.zip wls, i < p.2.length) :
    chunkedChunks xs wls idxs =
      (idxs.map Coll.allReduceAsync,
       .ok (idxs.map (fun i => reduceSum ((xs.zip wls).map (fun p =>
         linearNoBias p.1 (p.2.getD i [])))))) := by
  induction idxs with
  | nil => rfl
  | cons i rest ih =>
    have hall : allRanksChunk xs wls i
        = some ((xs.zip wls).map (fun p => linearNoBias p.1 (p.2.getD i []))) := by
      unfold allRanksChunk
      rw [if_pos (h i (List.mem_cons_self i rest))]
    simp only [chunkedChunks, hall,
      ih (fun j hj p hp => h j (List.mem_cons_of_mem _ hj) p hp)]
    rfl

theorem rowForward_chunked_eq (cfg : RowCfg) (weights : List Mat)
    (bias : Option Vec) (inputs xs : List Vec)
    (hok : rowStep1 cfg weights inputs = .ok xs)
    (hc : 1 < cfg.stream_chunk_num) (ht : cfg.training = false)
    (hbound : ∀ i ∈ List.range cfg.stream_chunk_num,
      ∀ p ∈ xs.zip (weights.map (torchChunk cfg.stream_chunk_num)), i < p.2.length) :
    rowForward cfg weights bias inputs =
      ((List.range cfg.stream_chunk_num).map Coll.allReduceAsync,
       .ok (addBias cfg.skip_bias_add bias
         (((List.range cfg.stream_chunk_num).map (fun i =>
            reduceSum ((xs.zip (weights.map (torchChunk cfg.stream_chunk_num))).map
              (fun p => linearNoBias p.1 (p.2.getD i []))))).flatten))) := by
  unfold rowForward
  rw [hok]
  simp only [if_pos hc, ht]
  rw [chunkedChunks_ok xs (weights.map (torchChunk cfg.stream_chunk_num))
    (List.range cfg.stream_chunk_num) hbound]
  rfl

/-- Zipping a list with a `range`-indexed map turns into a single
`range`-indexed map through `getD`. -/
theorem zip_rangeMap_map {β γ : Type} (f : Vec → β → γ) :
    ∀ (xs : List Vec) (g : Nat → β),
      (xs.zip ((List.range xs.length).map g)).map (fun p => f p.1 p.2)
      = (List.range xs.length).map (fun r => f (xs.getD r []) (g r)) := by
  intro xs
  induction xs with
  | nil => intro g; rfl
  | cons x xt ih =>
    intro g
    simp only [List.length_cons]
    rw [List.range_succ_eq_map]
    simp only [List.map_cons, List.map_map, List.zip_cons_cons]
    congr 1
    rw [ih (g ∘ Nat.succ)]
    rfl

/-- The shape of a forward result as dictated by `skip_bias_add`:
`(output, bias)` pair when set, bare output otherwise. -/
def mkFwdOut (skip : Bool) (y : Vec) (b : Option Vec) : FwdOut :=
  if skip then .pair y b else .single y

theorem colForward_ok (cfg : ColCfg) (weights : List Mat)
    (biases : List (Option Vec)) (r : Nat) (x : Vec)
    (hxr : x.length = lastDim (weights.getD r [])) :
    colForward cfg weights biases r x
      = ((if cfg.gather_output then [Coll.allGather] else []),
         .ok (mkFwdOut cfg.skip_bias_add
           (if cfg.gather_output then
             ((List.range weights.length).map (fun r2 =>
               colLocalOut cfg.skip_bias_add (weights.getD r2 [])
                 (biases.getD r2 none) x)).flatten
            else colLocalOut cfg.skip_bias_add (weights.getD r [])
              (biases.getD r none) x)
           (biases.getD r none))) := by
  unfold colForward mkFwdOut
  rw [if_pos hxr]
  cases hg : cfg.gather_output <;> cases hs : cfg.skip_bias_add <;> rfl

theorem colLocalOut_length (skip : Bool) (w : Mat) (b : Option Vec) (x : Vec)
    (m : Nat) (hw : w.length = m) (hb : ∀ bv, b = some bv → bv.length = m) :
    (colLocalOut skip w b x).length = m := by
  cases skip with
  | true =>
    show (linearNoBias x w).length = m
    rw [linearNoBias_length, hw]
  | false =>
    cases b with
    | none =>
      show (linearNoBias x w).length = m
      rw [linearNoBias_length, hw]
    | some bv =>
      show (vadd (linearNoBias x w) bv).length = m
      rw [vadd_length, linearNoBias_length, hw, hb bv rfl, Nat.min_self]

theorem getD_some_length (biases : List (Option Vec)) (m : Nat)
    (hb : ∀ ob ∈ biases, ∀ bv, ob = some bv → bv.length = m) (r : Nat) :
    ∀ bv, biases.getD r none = some bv → bv.length = m := by
  intro bv hbv
  by_cases hr : r < biases.length
  · rw [List.getD_eq_getElem _ _ hr] at hbv
    exact hb _ (List.getElem_mem _) bv hbv
  · rw [List.getD_eq_default _ _ (by omega)] at hbv
    exact absurd hbv (by simp)

/-! ## Claim theorems -/

/-- **C1** (counterexample): `torch.chunk` may return fewer than
`stream_chunk_num` chunks (5 rows into 4 requested chunks yields block
sizes 2,2,1 — three chunks), and the streamed loop indexes
`weight_list[i]` for every `i < stream_chunk_num`; so a Row-Parallel
layer in eval mode with a 5-row weight shard and `streamChunkCount = 4`
raises an index error on an input of matching width, instead of
returning the Standard-mode output. -/
theorem claim_C1_counterexample :
    rowForward ⟨true, false, 4, false⟩ [[[1], [1], [1], [1], [1]]] none [[2]]
        = ([Coll.allReduceAsync 0, Coll.allReduceAsync 1, Coll.allReduceAsync 2],
           .error .indexError) ∧
    rowForward ⟨true, false, 1, false⟩ [[[1], [1], [1], [1], [1]]] none [[2]]
        = ([Coll.allReduceSync], .ok (.single [2, 2, 2, 2, 2])) :=
  ⟨rfl, rfl⟩

/-- **C1** (amended): for every Row-Parallel layer in eval mode with
`streamChunkCount > 1`, whenever the weight shards (all with the same
positive output dimension `m`, as every rank holds an `[out, in/P]`
shard) split under `torch.chunk` into exactly `streamChunkCount` blocks
— the last block may be shorter — the chunked forward path returns the
same output as the Standard-mode forward on any input shards of
matching width, with bias handled identically. -/
theorem claim_C1_chunked_refines_standard (c m : Nat) (hc : 1 < c) (hm0 : 0 < m)
    (weights : List Mat) (xs : List Vec) (bias : Option Vec) (skip : Bool)
    (hm : ∀ w ∈ weights, w.length = m)
    (hcnt : ∀ w ∈ weights, (torchChunk c w).length = c)
    (hshape : ∀ p ∈ xs.zip weights, p.1.length = lastDim p.2) :
    (rowForward ⟨true, skip, c, false⟩ weights bias xs).2
      = (rowForward ⟨true, skip, 1, false⟩ weights bias xs).2 := by
  have hok1 : rowStep1 ⟨true, skip, c, false⟩ weights xs = .ok xs :=
    rowStep1_par_ok _ rfl _ _ hshape
  have hok2 : rowStep1 ⟨true, skip, 1, false⟩ weights xs = .ok xs :=
    rowStep1_par_ok _ rfl _ _ hshape
  have hq : 0 < (m + c - 1) / c :=
    (Nat.one_le_div_iff (by omega)).mpr (by omega)
  have hchunk : ∀ w ∈ weights, torchChunk c w = chunksOf ((m + c - 1) / c) w := by
    intro w hw
    unfold torchChunk
    rw [hm w hw]
  have hcnt2 : ∀ w ∈ weights, (chunksOf ((m + c - 1) / c) w).length = c := by
    intro w hw
    rw [← hchunk w hw]
    exact hcnt w hw
  have hbound : ∀ i ∈ List.range c,
      ∀ p ∈ xs.zip (weights.map (torchChunk c)), i < p.2.length := by
    intro i hi p hp
    obtain ⟨_, h2⟩ := List.of_mem_zip hp
    rcases List.mem_map.mp h2 with ⟨w, hw, hwp⟩
    rw [← hwp, hcnt w hw]
    exact List.mem_range.mp hi
  have hfl : (((List.range c).map (fun i =>
      reduceSum ((xs.zip (weights.map (torchChunk c))).map
        (fun p => linearNoBias p.1 (p.2.getD i []))))).flatten)
      = reduceSum ((xs.zip weights).map (fun p => linearNoBias p.1 p.2)) := by
    have hz : xs.zip (weights.map (torchChunk c))
        = (xs.zip weights).map (Prod.map id (torchChunk c)) :=
      List.zip_map_right _ _ _
    rw [hz]
    have hinner : ∀ i : Nat, ((xs.zip weights).map (Prod.map id (torchChunk c))).map
        (fun p => linearNoBias p.1 (p.2.getD i []))
        = (xs.zip weights).map (fun p =>
            linearNoBias p.1 ((chunksOf ((m + c - 1) / c) p.2).getD i [])) := by
      intro i
      rw [List.map_map]
      refine List.map_congr_left (fun p hp => ?_)
      simp only [Function.comp_apply, Prod.map_fst, Prod.map_snd, id_eq]
      rw [hchunk p.2 (List.of_mem_zip hp).2]
    have h2 : (List.range c).map (fun i =>
          reduceSum (((xs.zip weights).map (Prod.map id (torchChunk c))).map
            (fun p => linearNoBias p.1 (p.2.getD i []))))
        = (List.range c).map (fun i =>
          reduceSum ((xs.zip weights).map (fun p =>
            linearNoBias p.1 ((chunksOf ((m + c - 1) / c) p.2).getD i [])))) :=
      List.map_congr_left (fun i _ => by rw [hinner i])
    rw [h2]
    exact flatten_chunk_reduce ((m + c - 1) / c) hq c m (xs.zip weights)
      (fun p hp => hm p.2 (List.of_mem_zip hp).2)
      (fun p hp => hcnt2 p.2 (List.of_mem_zip hp).2)
  rw [rowForward_chunked_eq _ _ _ _ _ hok1 hc rfl hbound,
    rowForward_of_step1_ok _ _ _ _ _ hok2 rfl]
  exact congrArg (fun v => Except.ok (addBias skip bias v)) hfl

/-- Exercises the ragged case: a 7-row shard with `streamChunkCount = 4`
splits into blocks of sizes 2, 2, 2, 1 — exactly four chunks. -/
theorem claim_C1_witness :
    (rowForward ⟨true, false, 4, false⟩ [[[1], [1], [1], [1], [1], [1], [1]]]
        none [[2]]).2
      = (rowForward ⟨true, false, 1, false⟩ [[[1], [1], [1], [1], [1], [1], [1]]]
        none [[2]]).2 :=
  claim_C1_chunked_refines_standard 4 7 (by decide) (by decide)
    [[[1], [1], [1], [1], [1], [1], [1]]] [[2]] none false
    (by decide) (by decide) (by decide)

/-- **C2**: in Standard mode the Row-Parallel forward computes the local
partial matmul, reduce-sums the partials across ranks, and adds the
replicated bias exactly once after the reduction, so the result equals
the dense layer's output; with `skip_bias_add` it instead returns the
pair of the reduced bias-free output and the bias. -/
theorem claim_C2_standard_matches_dense (P k : Nat) (hP : 0 < P) (hk : 0 < k)
    (W : Mat) (hWne : W ≠ []) (b : Vec) (x : Vec) (t : Bool)
    (hx : x.length = P * k) (hW : ∀ row ∈ W, row.length = P * k) :
    rowForward ⟨true, false, 1, t⟩ (shardColwise k P W) (some b) (chunksOf k x)
      = ([Coll.allReduceSync], .ok (.single (vadd (linearNoBias x W) b)))
    ∧ rowForward ⟨true, true, 1, t⟩ (shardColwise k P W) (some b) (chunksOf k x)
      = ([Coll.allReduceSync], .ok (.pair (linearNoBias x W) (some b))) := by
  have hlenx : (chunksOf k x).length = P := chunksOf_length k hk P x hx
  have hshape : ∀ p ∈ (chunksOf k x).zip (shardColwise k P W),
      p.1.length = lastDim p.2 := by
    intro p hp
    obtain ⟨h1, h2⟩ := List.of_mem_zip hp
    have hp1 : p.1.length = k := chunksOf_mem_length k hk P x hx p.1 h1
    rcases List.mem_map.mp h2 with ⟨r, hr, hrp⟩
    rw [List.mem_range] at hr
    rw [hp1, ← hrp]
    cases W with
    | nil => exact absurd rfl hWne
    | cons w0 rest =>
      simp only [List.map_cons, lastDim, List.headD_cons]
      rw [chunksOf_getD_length k hk P w0 (hW w0 (by simp)) r hr]
  have hmain : reduceSum (((chunksOf k x).zip (shardColwise k P W)).map
      (fun p => linearNoBias p.1 p.2)) = linearNoBias x W := by
    unfold shardColwise
    rw [← hlenx]
    rw [zip_rangeMap_map (fun cv m => linearNoBias cv m)]
    rw [hlenx]
    obtain ⟨n, rfl⟩ : ∃ n, P = n + 1 := ⟨P - 1, by omega⟩
    exact reduceSum_shard_linear k hk n x W hx hW
  constructor
  · rw [rowForward_of_step1_ok _ _ _ _ _ (rowStep1_par_ok _ rfl _ _ hshape) rfl,
      hmain]
    rfl
  · rw [rowForward_of_step1_ok _ _ _ _ _ (rowStep1_par_ok _ rfl _ _ hshape) rfl,
      hmain]
    rfl

theorem claim_C2_witness :
    rowForward ⟨true, false, 1, false⟩ (shardColwise 1 2 [[1, 2]]) (some [10])
        (chunksOf 1 [3, 4])
      = ([Coll.allReduceSync], .ok (.single (vadd (linearNoBias [3, 4] [[1, 2]]) [10])))
    ∧ rowForward ⟨true, true, 1, false⟩ (shardColwise 1 2 [[1, 2]]) (some [10])
        (chunksOf 1 [3, 4])
      = ([Coll.allReduceSync], .ok (.pair (linearNoBias [3, 4] [[1, 2]]) (some [10]))) :=
  claim_C2_standard_matches_dense 2 1 (by decide) (by decide) [[1, 2]] (by decide)
    [10] [3, 4] false (by decide) (by decide)

/-- **C3**: for every dense linear layer and process group, the
dense-to-parallel conversion (Column gated on `out_features`, Row gated
on `in_features`) returns the original dense module unchanged — not an
error and not a parallel layer — whenever the relevant feature count is
strictly smaller than the group's world size, whatever the other
dimension is. -/
theorem claim_C3_dense_fallback (tp : Nat) :
    (∀ inF outF (b : Bool), outF < tp →
      colFromNativeModule inF outF b tp = .ok .dense) ∧
    (∀ inF outF (b : Bool), inF < tp →
      rowFromNativeModule inF outF b tp = .ok .dense) := by
  constructor
  · intro inF outF b hcol
    unfold colFromNativeModule
    rw [if_pos hcol]
  · intro inF outF b hrow
    unfold rowFromNativeModule
    rw [if_pos hrow]

/-- Column conversion with `in_features = 7 ≥ world_size = 5 > 4 =
out_features`, and Row conversion with `out_features = 9` large and
`in_features = 4 < 5`: both fall back to the dense module. -/
theorem claim_C3_witness :
    colFromNativeModule 7 4 true 5 = .ok .dense ∧
    rowFromNativeModule 4 9 true 5 = .ok .dense :=
  ⟨(claim_C3_dense_fallback 5).1 7 4 true (by decide),
   (claim_C3_dense_fallback 5).2 4 9 true (by decide)⟩

/-- **C4**: for every dense layer whose relevant feature count is at
least the world size but not divisible by it, the conversion raises a
divisibility error naming both the feature count and the world size,
and no parallel layer is constructed. -/
theorem claim_C4_divisibility_error (f tp : Nat) (h1 : tp ≤ f) (h2 : f % tp ≠ 0) :
    (∀ inF b, colFromNativeModule inF f b tp = .error (.notDivisible f tp)) ∧
    (∀ outF b, rowFromNativeModule f outF b tp = .error (.notDivisible f tp)) := by
  constructor
  · intro inF b
    unfold colFromNativeModule
    rw [if_neg (by omega), if_pos h2]
  · intro outF b
    unfold rowFromNativeModule
    rw [if_neg (by omega), if_pos h2]

/-- The spec's concrete scenario: Row conversion with `in_features = 10`,
`world_size = 3` errors naming `10` and `3` (and symmetrically for the
Column layer on `out_features`). -/
theorem claim_C4_witness :
    colFromNativeModule 7 10 true 3 = .error (.notDivisible 10 3) ∧
    rowFromNativeModule 10 8 true 3 = .error (.notDivisible 10 3) :=
  ⟨(claim_C4_divisibility_error 10 3 (by decide) (by decide)).1 7 true,
   (claim_C4_divisibility_error 10 3 (by decide) (by decide)).2 8 true⟩

/-- **C5** (counterexample): the claim says forward on a chunked layer
in training mode raises the training-incompatibility error *for every
input*; but the shape assertion runs first, so an input of mismatched
width raises the shape diagnostic instead of the training error. -/
theorem claim_C5_counterexample :
    rowForward ⟨true, true, 2, true⟩ [[[1, 1], [1, 1]]] (some [0, 0]) [[1, 2, 3]]
        = ([], .error (.shapeMismatch [3] [2, 2] 2)) ∧
    (rowForward ⟨true, true, 2, true⟩ [[[1, 1], [1, 1]]] (some [0, 0]) [[1, 2, 3]]).2
        ≠ .error .trainingChunked :=
  ⟨rfl, fun h => FwdErr.noConfusion (Except.error.inj h)⟩

/-- **C5** (amended): for every Row-Parallel layer with
`streamChunkCount > 1` in training mode, and every input that passes
the shape check, forward raises the training-incompatibility error
before computing any chunk or issuing any collective (the collective
trace is empty). -/
theorem claim_C5_training_error (cfg : RowCfg) (weights : List Mat)
    (bias : Option Vec) (inputs : List Vec)
    (hc : 1 < cfg.stream_chunk_num) (ht : cfg.training = true)
    (hshape : ∃ xs, rowStep1 cfg weights inputs = .ok xs) :
    rowForward cfg weights bias inputs = ([], .error .trainingChunked) := by
  obtain ⟨xs, hxs⟩ := hshape
  unfold rowForward
  rw [hxs]
  simp only [if_pos hc, ht, if_true]

theorem claim_C5_witness :
    (1 : Nat) < 2 ∧
    rowForward ⟨true, true, 2, true⟩ [[[1, 1], [1, 1]]] (some [0, 0]) [[1, 2]]
      = ([], .error .trainingChunked) :=
  ⟨by decide,
   claim_C5_training_error ⟨true, true, 2, true⟩ [[[1, 1], [1, 1]]] (some [0, 0])
     [[1, 2]] (by decide) rfl ⟨[[1, 2]], rfl⟩⟩

/-- **C6**: constructing either layer with `skip_bias_add = true` and
`bias = false` is rejected immediately with the configuration error,
with an empty effect trace: no parameter allocation, no sharding, no
cross-rank communication. -/
theorem claim_C6_contradictory_flags (c : Nat) (wp bp : Bool) :
    colInit false true wp bp = ([], .error .skipBiasNoBias) ∧
    rowInit false true c wp bp = ([], .error .skipBiasNoBias) := by
  constructor
  · unfold colInit
    rw [if_pos (by simp)]
  · unfold rowInit
    rw [if_pos (by simp)]

/-- **C7**: for every Column-Parallel layer and replicated input of the
expected width: with `gather_output` the forward issues one all-gather
and every rank returns the same full-width (`P * m`) output; without it
the rank returns its own `m`-wide shard as-is with no collective; and
the result is the `(output, biasShard)` pair — with the bias never
added into the output — exactly when `skip_bias_add` is set. -/
theorem claim_C7_col_forward (cfg : ColCfg) (weights : List Mat)
    (biases : List (Option Vec)) (x : Vec) (m n : Nat)
    (hn : ∀ w ∈ weights, lastDim w = n) (hx : x.length = n)
    (hm : ∀ w ∈ weights, w.length = m)
    (hb : ∀ ob ∈ biases, ∀ bv, ob = some bv → bv.length = m) :
    ∀ r, r < weights.length →
    ∃ y : Vec,
      colForward cfg weights biases r x
        = ((if cfg.gather_output then [Coll.allGather] else []),
           .ok (mkFwdOut cfg.skip_bias_add y (biases.getD r none)))
      ∧ y.length = (if cfg.gather_output then weights.length * m else m)
      ∧ (cfg.skip_bias_add = true →
          y = (if cfg.gather_output then
                ((List.range weights.length).map (fun r2 =>
                  linearNoBias x (weights.getD r2 []))).flatten
               else linearNoBias x (weights.getD r [])))
      ∧ (cfg.gather_output = true → ∀ r2, r2 < weights.length →
          colForward cfg weights biases r2 x
            = ([Coll.allGather],
               .ok (mkFwdOut cfg.skip_bias_add y (biases.getD r2 none)))) := by
  intro r hr
  have hwmem : ∀ r2, r2 < weights.length → weights.getD r2 [] ∈ weights := by
    intro r2 h2
    rw [List.getD_eq_getElem _ _ h2]
    exact List.getElem_mem _
  have hxr : ∀ r2, r2 < weights.length → x.length = lastDim (weights.getD r2 []) :=
    fun r2 h2 => by rw [hx, hn _ (hwmem r2 h2)]
  have hlocal : ∀ r2, r2 < weights.length →
      (colLocalOut cfg.skip_bias_add (weights.getD r2 [])
        (biases.getD r2 none) x).length = m :=
    fun r2 h2 => colLocalOut_length _ _ _ _ m (hm _ (hwmem r2 h2))
      (getD_some_length biases m hb r2)
  refine ⟨(if cfg.gather_output then
            ((List.range weights.length).map (fun r2 =>
              colLocalOut cfg.skip_bias_add (weights.getD r2 [])
                (biases.getD r2 none) x)).flatten
           else colLocalOut cfg.skip_bias_add (weights.getD r [])
             (biases.getD r none) x), ?_, ?_, ?_, ?_⟩
  · exact colForward_ok cfg weights biases r x (hxr r hr)
  · cases hg : cfg.gather_output with
    | false =>
      simp only [Bool.false_eq_true, if_false]
      exact hlocal r hr
    | true =>
      simp only [if_true]
      rw [flatten_map_length (List.range weights.length) _ m
        (fun r2 hr2 => hlocal r2 (List.mem_range.mp hr2)), List.length_range]
  · intro hs
    rw [hs]
    rfl
  · intro hg r2 hr2
    rw [colForward_ok cfg weights biases r2 x (hxr r2 hr2), hg]
    simp

theorem claim_C7_witness :
    ∃ y : Vec,
      colForward ⟨true, false⟩ [[[1, 0], [0, 1]], [[1, 1], [2, 2]]]
          [some [5, 5], some [7, 7]] 0 [1, 2]
        = ((if true then [Coll.allGather] else []),
           .ok (mkFwdOut false y ([some [5, 5], some [7, 7]].getD 0 none)))
      ∧ y.length = (if true then 2 * 2 else 2)
      ∧ (false = true → y = (if true then
            ((List.range 2).map (fun r2 =>
              linearNoBias [1, 2] ([[[1, 0], [0, 1]], [[1, 1], [2, 2]]].getD r2 []))).flatten
          else linearNoBias [1, 2] ([[[1, 0], [0, 1]], [[1, 1], [2, 2]]].getD 0 [])))
      ∧ (true = true → ∀ r2, r2 < 2 →
          colForward ⟨true, false⟩ [[[1, 0], [0, 1]], [[1, 1], [2, 2]]]
              [some [5, 5], some [7, 7]] r2 [1, 2]
            = ([Coll.allGather],
               .ok (mkFwdOut false y ([some [5, 5], some [7, 7]].getD r2 none)))) :=
  claim_C7_col_forward ⟨true, false⟩ [[[1, 0], [0, 1]], [[1, 1], [2, 2]]]
    [some [5, 5], some [7, 7]] [1, 2] 2 2
    (by decide) (by decide) (by decide) (by decide) 0 (by decide)

/-- **C8**: a last-dimension mismatch between the input and the expected
width (the weight shard's width for Column-Parallel and for Row-Parallel
with `parallel_input`; `world_size` times the shard width for
Row-Parallel with a replicated input) fails locally with a diagnostic
naming the input shape, the weight shape and the expected value, and
with an empty collective trace. -/
theorem claim_C8_shape_errors :
    (∀ (cfg : ColCfg) (weights : List Mat) (biases : List (Option Vec))
        (r : Nat) (x : Vec),
      x.length ≠ lastDim (weights.getD r []) →
      colForward cfg weights biases r x
        = ([], .error (.shapeMismatch [x.length] (matShape (weights.getD r []))
            (lastDim (weights.getD r []))))) ∧
    (∀ (cfg : RowCfg) (weights : List Mat) (bias : Option Vec)
        (inputs : List Vec), cfg.parallel_input = true →
      (∃ p ∈ inputs.zip weights, p.1.length ≠ lastDim p.2) →
      ∃ x w, (x, w) ∈ inputs.zip weights ∧ x.length ≠ lastDim w ∧
        rowForward cfg weights bias inputs
          = ([], .error (.shapeMismatch [x.length] (matShape w) (lastDim w)))) ∧
    (∀ (cfg : RowCfg) (weights : List Mat) (bias : Option Vec)
        (inputs : List Vec), cfg.parallel_input = false →
      (∃ p ∈ inputs.zip weights, p.1.length ≠ lastDim p.2 * weights.length) →
      ∃ x w, (x, w) ∈ inputs.zip weights ∧
        x.length ≠ lastDim w * weights.length ∧
        rowForward cfg weights bias inputs
          = ([], .error (.shapeMismatch [x.length] (matShape w)
              (lastDim w * weights.length)))) := by
  refine ⟨?_, ?_, ?_⟩
  · intro cfg weights biases r x hne
    unfold colForward
    rw [if_neg hne]
  · intro cfg weights bias inputs hpi hbad
    rcases firstShapeErrPar_some inputs weights hbad with ⟨x, w, hmem, hne, heq⟩
    refine ⟨x, w, hmem, hne, ?_⟩
    have hstep : rowStep1 cfg weights inputs
        = .error (.shapeMismatch [x.length] (matShape w) (lastDim w)) := by
      unfold rowStep1
      rw [hpi]
      simp only [if_true, heq]
    unfold rowForward
    rw [hstep]
  · intro cfg weights bias inputs hpi hbad
    rcases firstShapeErrRep_some weights.length inputs weights hbad with
      ⟨x, w, hmem, hne, heq⟩
    refine ⟨x, w, hmem, hne, ?_⟩
    have hstep : rowStep1 cfg weights inputs
        = .error (.shapeMismatch [x.length] (matShape w)
            (lastDim w * weights.length)) := by
      unfold rowStep1
      rw [hpi]
      simp only [Bool.false_eq_true, if_false, heq]
    unfold rowForward
    rw [hstep]

theorem claim_C8_witness :
    (colForward ⟨false, false⟩ [[[1, 2], [3, 4]]] [none] 0 [1, 2, 3]
      = ([], .error (.shapeMismatch [3] [2, 2] 2))) ∧
    (∃ x w, (x, w) ∈ ([[1, 2, 3]] : List Vec).zip [[[1, 2], [3, 4]]]
      ∧ x.length ≠ lastDim w ∧
      rowForward ⟨true, false, 1, false⟩ [[[1, 2], [3, 4]]] none [[1, 2, 3]]
        = ([], .error (.shapeMismatch [x.length] (matShape w) (lastDim w)))) ∧
    (∃ x w, (x, w) ∈ ([[1, 2, 3]] : List Vec).zip [[[1, 2], [3, 4]]]
      ∧ x.length ≠ lastDim w * 1 ∧
      rowForward ⟨false, false, 1, false⟩ [[[1, 2], [3, 4]]] none [[1, 2, 3]]
        = ([], .error (.shapeMismatch [x.length] (matShape w) (lastDim w * 1)))) :=
  ⟨claim_C8_shape_errors.1 ⟨false, false⟩ [[[1, 2], [3, 4]]] [none] 0 [1, 2, 3]
      (by decide),
   claim_C8_shape_errors.2.1 ⟨true, false, 1, false⟩ [[[1, 2], [3, 4]]] none
      [[1, 2, 3]] rfl ⟨([1, 2, 3], [[1, 2], [3, 4]]), by decide, by decide⟩,
   claim_C8_shape_errors.2.2 ⟨false, false, 1, false⟩ [[[1, 2], [3, 4]]] none
      [[1, 2, 3]] rfl ⟨([1, 2, 3], [[1, 2], [3, 4]]), by decide, by decide⟩⟩

/-- **C9** (counterexample): `Linear1D_Row.reset_parameters` itself
contains no forked-RNG scope (unlike the Column layer's method, and
unlike the Row constructor's call site), so a direct invocation
perturbs the ambient random state: with an initializer that advances
the state, the state after the call differs from the state before. -/
theorem claim_C9_counterexample :
    rowResetParameters true (fun s => s + 1) (fun s => s + 1) 0 ≠ 0 := by
  decide

/-- **C9** (amended): `Linear1D_Col.reset_parameters` restores the
ambient RNG state on every invocation; the Row layer restores it only
for the construction-time initialization, whose call site is wrapped in
the scoped context; and the scoped context itself restores the saved
state on every exit path, whatever the body does or returns (including
an exceptional result). -/
theorem claim_C9_rng_restore (hasBias : Bool) (wInit bInit : RngState → RngState)
    (s : RngState) (body : RngState → Except Unit Unit × RngState) :
    (colResetParameters hasBias wInit bInit s).2 = s ∧
    (rowInitTimeReset hasBias wInit bInit s).2 = s ∧
    (forkRng body s).2 = s :=
  ⟨rfl, rfl, rfl⟩

/-- **C10**: the constructor signature defaults `parallel_input` to
`True` although the docstring documents `False`; a default-constructed
Row layer therefore takes the sharded-input branch, and a caller
passing a replicated full-width input (width `P * k`, `P ≥ 2` ranks,
shard width `k ≥ 1`) hits the sharded-input shape check instead of the
Split path. -/
theorem claim_C10_parallel_input_default (weights : List Mat) (x : Vec) (k : Nat)
    (hk : 0 < k) (hP : 2 ≤ weights.length)
    (hw : ∀ w ∈ weights, lastDim w = k)
    (hx : x.length = weights.length * k) :
    rowParallelInputDefault = true ∧
    rowParallelInputDefault ≠ rowParallelInputDocumentedDefault ∧
    rowForward ⟨rowParallelInputDefault, false, 1, false⟩ weights none
        (List.replicate weights.length x)
      = ([], .error (.shapeMismatch [x.length] (matShape (weights.headD []))
          (lastDim (weights.headD [])))) := by
  refine ⟨rfl, by decide, ?_⟩
  cases weights with
  | nil => simp at hP
  | cons w0 rest =>
    have hw0 : lastDim w0 = k := hw w0 (by simp)
    have hne : x.length ≠ lastDim w0 := by
      rw [hw0, hx]
      simp only [List.length_cons]
      intro hcontra
      have hz : rest.length * k = 0 := by
        have : rest.length * k + k = k := by
          calc rest.length * k + k = (rest.length + 1) * k := by ring
          _ = k := hcontra
        omega
      rcases Nat.mul_eq_zero.mp hz with h0 | h0
      · simp only [List.length_cons] at hP
        omega
      · omega
    have hfse : firstShapeErrPar (List.replicate (rest.length + 1) x) (w0 :: rest)
        = some (.shapeMismatch [x.length] (matShape w0) (lastDim w0)) := by
      rw [List.replicate_succ]
      unfold firstShapeErrPar
      rw [if_neg hne]
    have hstep : rowStep1 ⟨rowParallelInputDefault, false, 1, false⟩ (w0 :: rest)
          (List.replicate (w0 :: rest).length x)
        = .error (.shapeMismatch [x.length] (matShape w0) (lastDim w0)) := by
      simp [rowStep1, rowParallelInputDefault, hfse]
    unfold rowForward
    rw [hstep]
    rfl

theorem claim_C10_witness :
    rowParallelInputDefault = true ∧
    rowParallelInputDefault ≠ rowParallelInputDocumentedDefault ∧
    rowForward ⟨rowParallelInputDefault, false, 1, false⟩ [[[1, 2]], [[3, 4]]] none
        (List.replicate 2 [1, 2, 3, 4])
      = ([], .error (.shapeMismatch [4] (matShape [[1, 2]]) (lastDim [[1, 2]]))) :=
  claim_C10_parallel_input_default [[[1, 2]], [[3, 4]]] [1, 2, 3, 4] 2
    (by decide) (by decide) (by decide) (by decide)

end ColossalLinear
